import Mathlib

/-!
Verification of the monotone triangular transport-map engine driven by the
MParT example scripts.  The engine itself (multi-index sets, monotone map
components, triangular maps, training objectives) is exposed to the scripts
through a narrow API; its behaviour is modelled here from the specification
and the scripts are embedded from their source.
-/

namespace MPartSpec

open scoped Classical

/-! ## Multi-index sets and total-order enumeration -/

/-- Modelled from the spec: `createTotalOrder(dim, maxOrder, limiter)` of the
multi-index-set component (the library code is not part of this repository).
It generates all exponent tuples of the given dimension whose exponent sum is
at most `maxOrder`, in a fixed deterministic order (tuples are emitted
grouped by their first exponent, recursively). -/
def createTotalOrder : ℕ → ℕ → List (List ℕ)
  | 0, _ => [[]]
  | dim + 1, k =>
      ((List.range (k + 1)).map
        (fun a => (createTotalOrder dim (k - a)).map (fun t => a :: t))).flatten

/-- Modelled from the spec: the trivial limiter (`NoneLim`) accepting every
multi-index. -/
def NoneLim : List ℕ → Bool := fun _ => true

/-- Modelled from the spec: total-order generation with a limiter, which
excludes the tuples rejected by the limiter predicate. -/
def createTotalOrderLimited (dim maxOrder : ℕ) (limiter : List ℕ → Bool) :
    List (List ℕ) :=
  (createTotalOrder dim maxOrder).filter limiter

theorem mem_createTotalOrder (dim k : ℕ) (m : List ℕ) :
    m ∈ createTotalOrder dim k ↔ m.length = dim ∧ m.sum ≤ k := by
  induction dim generalizing k m with
  | zero =>
      constructor
      · intro h
        simp only [createTotalOrder, List.mem_singleton] at h
        subst h
        simp
      · rintro ⟨h, -⟩
        rw [List.length_eq_zero] at h
        subst h
        simp [createTotalOrder]
  | succ dim ih =>
      constructor
      · intro h
        simp only [createTotalOrder, List.mem_flatten, List.mem_map,
          List.mem_range] at h
        obtain ⟨L, ⟨a, ha, rfl⟩, hm⟩ := h
        obtain ⟨t, ht, rfl⟩ := List.mem_map.mp hm
        obtain ⟨hlen, hsum⟩ := (ih _ t).mp ht
        refine ⟨by simp [hlen], ?_⟩
        simp only [List.sum_cons]
        omega
      · rintro ⟨hlen, hsum⟩
        cases m with
        | nil => simp at hlen
        | cons a t =>
            simp only [List.length_cons, Nat.succ_inj] at hlen
            simp only [List.sum_cons] at hsum
            simp only [createTotalOrder, List.mem_flatten, List.mem_map,
              List.mem_range]
            exact ⟨(createTotalOrder dim (k - a)).map (fun t => a :: t),
              ⟨a, by omega, rfl⟩,
              List.mem_map.mpr ⟨t, (ih _ t).mpr ⟨hlen, by omega⟩, rfl⟩⟩

theorem nodup_createTotalOrder (dim k : ℕ) : (createTotalOrder dim k).Nodup := by
  induction dim generalizing k with
  | zero => simp [createTotalOrder]
  | succ dim ih =>
      rw [createTotalOrder, List.nodup_flatten]
      constructor
      · intro l hl
        obtain ⟨a, _, rfl⟩ := List.mem_map.mp hl
        exact (ih _).map (fun t1 t2 h => by simpa using h)
      · rw [List.pairwise_map]
        refine (List.nodup_range (k + 1)).pairwise_of_forall_ne ?_
        intro a _ b _ hab
        intro x hx hx2
        obtain ⟨t1, _, rfl⟩ := List.mem_map.mp hx
        obtain ⟨t2, _, h2⟩ := List.mem_map.mp hx2
        exact hab ((List.cons.inj h2).1.symm)

/-- Claim C8: `createTotalOrder(dim, maxOrder, limiter)` enumerates exactly the
tuples of the given dimension whose exponent sum is at most `maxOrder`
(each exactly once, in a deterministic order); for `dim = 2`, `maxOrder = 2`
the result is exactly the six tuples `[0,0], [1,0], [0,1], [2,0], [1,1], [0,2]`,
and for `maxOrder = 0` the all-zero tuple is included. -/
theorem createTotalOrder_enumerates :
    (∀ (dim k : ℕ) (limiter : List ℕ → Bool) (m : List ℕ),
        m ∈ createTotalOrderLimited dim k limiter ↔
          m.length = dim ∧ m.sum ≤ k ∧ limiter m = true) ∧
    (∀ dim k : ℕ, (createTotalOrder dim k).Nodup) ∧
    List.Perm (createTotalOrder 2 2)
      [[0, 0], [1, 0], [0, 1], [2, 0], [1, 1], [0, 2]] ∧
    (∀ dim : ℕ, List.replicate dim 0 ∈ createTotalOrder dim 0) := by
  refine ⟨?_, nodup_createTotalOrder, by decide, ?_⟩
  · intro dim k limiter m
    rw [createTotalOrderLimited, List.mem_filter, mem_createTotalOrder]
    tauto
  · intro dim
    rw [mem_createTotalOrder]
    simp [List.sum_replicate]

/-! ## Basis families, rectifiers and monotone map components -/

/-- Modelled from the spec: a 1-D basis family (§4.1 of the spec; the library
code is not part of this repository).  `val n` is the `n`-th basis function and
`dval n` its first derivative; the family is smooth and evaluable pointwise. -/
structure BasisFamily where
  val : ℕ → ℝ → ℝ
  dval : ℕ → ℝ → ℝ
  hasDerivAt_val : ∀ (n : ℕ) (x : ℝ), HasDerivAt (val n) (dval n x) x
  continuous_dval : ∀ n : ℕ, Continuous (dval n)

theorem BasisFamily.continuous_val (B : BasisFamily) (n : ℕ) :
    Continuous (B.val n) :=
  Differentiable.continuous (fun x => (B.hasDerivAt_val n x).differentiableAt)

/-- Modelled from the spec: the positivity rectifier `g : ℝ → ℝ₊` (§4.3), a
strictly positive continuous function (softplus-like). -/
structure Rectifier where
  g : ℝ → ℝ
  g_pos : ∀ y : ℝ, 0 < g y
  continuous_g : Continuous g

/-- Modelled from the spec: a monotone map component of input dimension
`m + 1` (§4.3, `CreateComponent`).  It owns a multi-index set over the input
dimension, a coefficient vector and the basis/rectifier configuration; the
coefficients are the only mutable state of the Python object and are a plain
field of this functional model. -/
structure MonotoneMapComponent (m : ℕ) where
  basis : BasisFamily
  rect : Rectifier
  mset : List (Fin (m + 1) → ℕ)
  coeffs : List ℝ

/-- Modelled from the spec: the multivariate expansion
`f(x; w) = Σ_α w_α Π_j ψ_{α_j}(x_j)` over the component's multi-index set
(§4.3 step 1). -/
noncomputable def expansion {m : ℕ} (c : MonotoneMapComponent m)
    (x : Fin (m + 1) → ℝ) : ℝ :=
  ((c.mset.zip c.coeffs).map
    (fun p => p.2 * ∏ j, c.basis.val (p.1 j) (x j))).sum

/-- Modelled from the spec: the closed-form partial derivative of the
expansion with respect to the last coordinate, obtained from the basis
derivative rule (§4.3 step 1). -/
noncomputable def dExpansion {m : ℕ} (c : MonotoneMapComponent m)
    (x : Fin (m + 1) → ℝ) : ℝ :=
  ((c.mset.zip c.coeffs).map
    (fun p => p.2 * ∏ j,
      (if j = Fin.last m then c.basis.dval (p.1 j) (x j)
        else c.basis.val (p.1 j) (x j)))).sum

/-- Modelled from the spec: component evaluation
`S(x; w) = f(x_1, ..., x_{d-1}, 0; w) + ∫_0^{x_d} g(∂f/∂t (x_1, ..., t; w)) dt`
(§4.3 step 2); the adaptive quadrature of step 3 is modelled by the exact
integral it approximates. -/
noncomputable def MonotoneMapComponent.Evaluate {m : ℕ}
    (c : MonotoneMapComponent m) (x : Fin (m + 1) → ℝ) : ℝ :=
  expansion c (Function.update x (Fin.last m) 0) +
    ∫ t in (0 : ℝ)..(x (Fin.last m)),
      c.rect.g (dExpansion c (Function.update x (Fin.last m) t))

theorem continuous_list_sum_map {α : Type} (l : List α) (F : α → ℝ → ℝ)
    (h : ∀ a ∈ l, Continuous (F a)) :
    Continuous (fun t => (l.map (fun a => F a t)).sum) := by
  induction l with
  | nil => simpa using continuous_const
  | cons a l ih =>
      simp only [List.map_cons, List.sum_cons]
      exact (h a (List.mem_cons_self a l)).add
        (ih (fun b hb => h b (List.mem_cons_of_mem a hb)))

theorem continuous_dExpansion_update {m : ℕ} (c : MonotoneMapComponent m)
    (x : Fin (m + 1) → ℝ) :
    Continuous (fun t => dExpansion c (Function.update x (Fin.last m) t)) := by
  apply continuous_list_sum_map
  intro p _
  apply Continuous.mul continuous_const
  apply continuous_finset_prod
  intro j _
  by_cases hj : j = Fin.last m
  · subst hj
    simp only [if_pos rfl, Function.update_same]
    exact c.basis.continuous_dval _
  · simp only [if_neg hj, Function.update_noteq hj]
    exact continuous_const

theorem update_last_eq_snoc {m : ℕ} (x : Fin (m + 1) → ℝ) (t : ℝ) :
    Function.update x (Fin.last m) t = Fin.snoc (Fin.init x) t := by
  conv_lhs => rw [← Fin.snoc_init_self x]
  rw [Fin.update_snoc_last]

theorem continuous_dExpansion_snoc {m : ℕ} (c : MonotoneMapComponent m)
    (lead : Fin m → ℝ) :
    Continuous (fun s => c.rect.g (dExpansion c (Fin.snoc lead s))) := by
  apply c.rect.continuous_g.comp
  have h3 := continuous_dExpansion_update c (Fin.snoc lead 0)
  have he : (fun s => dExpansion c (Fin.snoc lead s)) =
      (fun s => dExpansion c (Function.update (Fin.snoc lead 0) (Fin.last m) s)) := by
    funext s
    rw [Fin.update_snoc_last]
  rw [he]
  exact h3

theorem Evaluate_snoc {m : ℕ} (c : MonotoneMapComponent m) (lead : Fin m → ℝ)
    (t : ℝ) :
    c.Evaluate (Fin.snoc lead t) = expansion c (Fin.snoc lead 0) +
      ∫ s in (0 : ℝ)..t, c.rect.g (dExpansion c (Fin.snoc lead s)) := by
  unfold MonotoneMapComponent.Evaluate
  simp only [Fin.update_snoc_last, Fin.snoc_last]

theorem Evaluate_snoc_strictMono {m : ℕ} (c : MonotoneMapComponent m)
    (lead : Fin m → ℝ) :
    StrictMono (fun t => c.Evaluate (Fin.snoc lead t)) := by
  intro t1 t2 h
  have hcont := continuous_dExpansion_snoc c lead
  simp only [Evaluate_snoc]
  apply add_lt_add_left
  rw [← intervalIntegral.integral_add_adjacent_intervals
    (hcont.intervalIntegrable 0 t1) (hcont.intervalIntegrable t1 t2)]
  have hpos : 0 < ∫ s in t1..t2, c.rect.g (dExpansion c (Fin.snoc lead s)) :=
    intervalIntegral.intervalIntegral_pos_of_pos
      (hcont.intervalIntegrable t1 t2) (fun s => c.rect.g_pos _) h
  linarith

theorem hasDerivAt_Evaluate_snoc {m : ℕ} (c : MonotoneMapComponent m)
    (lead : Fin m → ℝ) (t0 : ℝ) :
    HasDerivAt (fun t => c.Evaluate (Fin.snoc lead t))
      (c.rect.g (dExpansion c (Fin.snoc lead t0))) t0 := by
  have hcont := continuous_dExpansion_snoc c lead
  have hF : (fun t => c.Evaluate (Fin.snoc lead t)) =
      (fun t => expansion c (Fin.snoc lead 0) +
        ∫ s in (0 : ℝ)..t, c.rect.g (dExpansion c (Fin.snoc lead s))) := by
    funext t
    exact Evaluate_snoc c lead t
  rw [hF]
  exact (intervalIntegral.integral_hasDerivAt_right
    (hcont.intervalIntegrable 0 t0)
    hcont.aestronglyMeasurable.stronglyMeasurableAtFilter
    hcont.continuousAt).const_add _

/-- Claim C1: for every coefficient vector (any component state), every fixed
tuple of leading coordinates and every pair `t1 < t2`, the monotone component
satisfies `S(lead, t1) < S(lead, t2)`; structurally, the derivative of `S` in
its last input is `g(∂f/∂x_d)`, which is strictly positive. -/
theorem component_strictly_monotone {m : ℕ} (c : MonotoneMapComponent m)
    (lead : Fin m → ℝ) (t1 t2 : ℝ) (h : t1 < t2) :
    c.Evaluate (Fin.snoc lead t1) < c.Evaluate (Fin.snoc lead t2) ∧
    (∀ t0 : ℝ,
      HasDerivAt (fun t => c.Evaluate (Fin.snoc lead t))
        (c.rect.g (dExpansion c (Fin.snoc lead t0))) t0 ∧
      0 < c.rect.g (dExpansion c (Fin.snoc lead t0))) :=
  ⟨Evaluate_snoc_strictMono c lead h,
    fun t0 => ⟨hasDerivAt_Evaluate_snoc c lead t0, c.rect.g_pos _⟩⟩

/-- The monomial basis family, used to instantiate the model on concrete
components. -/
noncomputable def monomialBasis : BasisFamily where
  val := fun n x => x ^ n
  dval := fun n x => n * x ^ (n - 1)
  hasDerivAt_val := fun n x => hasDerivAt_pow n x
  continuous_dval := fun n => continuous_const.mul (continuous_pow (n - 1))

/-- The exponential rectifier, a strictly positive smooth positivity map. -/
noncomputable def expRectifier : Rectifier where
  g := Real.exp
  g_pos := Real.exp_pos
  continuous_g := Real.continuous_exp

/-- A concrete one-dimensional monotone component (multi-index set `{[1]}`,
coefficient vector `[1]`). -/
noncomputable def exampleComponent : MonotoneMapComponent 0 where
  basis := monomialBasis
  rect := expRectifier
  mset := [fun _ => 1]
  coeffs := [1]

/-- Witness for C1: monotonicity at a concrete component and input pair. -/
theorem component_strictly_monotone_witness :
    exampleComponent.Evaluate (Fin.snoc (Fin.elim0 : Fin 0 → ℝ) 0) <
      exampleComponent.Evaluate (Fin.snoc (Fin.elim0 : Fin 0 → ℝ) 1) :=
  (component_strictly_monotone exampleComponent (Fin.elim0 : Fin 0 → ℝ) 0 1
    zero_lt_one).1

/-! ## Triangular maps -/

/-- Modelled from the spec: a triangular map (§4.4, `TriangularMap`), an
ordered family of monotone components where component `k` accepts the first
`k + 1` inputs; input dimension = output dimension = number of components. -/
structure TriangularMap (d : ℕ) where
  comps : (k : Fin d) → MonotoneMapComponent k.1

/-- The first `k + 1` rows of an input point, the part fed to component `k`
of a triangular map. -/
def leadingRows {d : ℕ} (x : Fin d → ℝ) (k : Fin d) : Fin (k.1 + 1) → ℝ :=
  fun j => x (Fin.castLE k.isLt j)

/-- Modelled from the spec: triangular-map evaluation, stacking each
component applied to its leading rows (§4.4). -/
noncomputable def TriangularMap.Evaluate {d : ℕ} (T : TriangularMap d)
    (x : Fin d → ℝ) : Fin d → ℝ :=
  fun k => (T.comps k).Evaluate (leadingRows x k)

/-- Modelled from the spec: per-point component log-determinant term
`log(∂S/∂x_d) = log(g(∂f/∂x_d))` (§4.3 step 4). -/
noncomputable def MonotoneMapComponent.LogDeterminant {m : ℕ}
    (c : MonotoneMapComponent m) (x : Fin (m + 1) → ℝ) : ℝ :=
  Real.log (c.rect.g (dExpansion c x))

/-- Modelled from the spec: triangular-map log-determinant, the sum of the
component log-determinants on their leading rows (§4.4). -/
noncomputable def TriangularMap.LogDeterminant {d : ℕ} (T : TriangularMap d)
    (x : Fin d → ℝ) : ℝ :=
  ∑ k, (T.comps k).LogDeterminant (leadingRows x k)

/-- The Jacobian matrix of the triangular map at a point: entry `(i, j)` is
the derivative of output `i` along input coordinate `j`. -/
noncomputable def jacobianMatrix {d : ℕ} (T : TriangularMap d)
    (x : Fin d → ℝ) : Matrix (Fin d) (Fin d) ℝ :=
  Matrix.of fun i j => deriv (fun s => T.Evaluate (Function.update x j s) i) (x j)

theorem leadingRows_update_of_lt {d : ℕ} (x : Fin d → ℝ) {i j : Fin d}
    (h : i < j) (s : ℝ) :
    leadingRows (Function.update x j s) i = leadingRows x i := by
  funext j2
  unfold leadingRows
  apply Function.update_noteq
  apply Fin.ne_of_lt
  rw [Fin.lt_def]
  simp only [Fin.coe_castLE]
  have h1 := j2.isLt
  have h2 := Fin.lt_def.mp h
  omega

theorem leadingRows_update_self {d : ℕ} (x : Fin d → ℝ) (k : Fin d) (s : ℝ) :
    leadingRows (Function.update x k s) k =
      Function.update (leadingRows x k) (Fin.last k.1) s := by
  funext j2
  unfold leadingRows
  by_cases hj : j2 = Fin.last k.1
  · subst hj
    have hcast : (Fin.castLE k.isLt (Fin.last k.1)) = k := by
      apply Fin.ext
      simp
    rw [hcast, Function.update_same, Function.update_same]
  · have hne : Fin.castLE k.isLt j2 ≠ k := by
      intro hc
      apply hj
      apply Fin.ext
      have hv := congrArg Fin.val hc
      simpa using hv
    rw [Function.update_noteq hne, Function.update_noteq hj]

theorem leadingRows_last {d : ℕ} (x : Fin d → ℝ) (k : Fin d) :
    leadingRows x k (Fin.last k.1) = x k := rfl

theorem jacobianMatrix_eq_zero_of_lt {d : ℕ} (T : TriangularMap d)
    (x : Fin d → ℝ) {i j : Fin d} (h : i < j) :
    jacobianMatrix T x i j = 0 := by
  unfold jacobianMatrix
  simp only [Matrix.of_apply]
  have hconst : (fun s => T.Evaluate (Function.update x j s) i) =
      (fun _ => T.Evaluate x i) := by
    funext s
    unfold TriangularMap.Evaluate
    rw [leadingRows_update_of_lt x h s]
  rw [hconst, deriv_const]

theorem jacobianMatrix_diag {d : ℕ} (T : TriangularMap d) (x : Fin d → ℝ)
    (k : Fin d) :
    jacobianMatrix T x k k =
      (T.comps k).rect.g (dExpansion (T.comps k) (leadingRows x k)) := by
  unfold jacobianMatrix
  simp only [Matrix.of_apply]
  have h1 : (fun s => T.Evaluate (Function.update x k s) k) =
      (fun s => (T.comps k).Evaluate
        (Fin.snoc (Fin.init (leadingRows x k)) s)) := by
    funext s
    unfold TriangularMap.Evaluate
    rw [leadingRows_update_self, update_last_eq_snoc]
  rw [h1, (hasDerivAt_Evaluate_snoc (T.comps k)
    (Fin.init (leadingRows x k)) (x k)).deriv]
  have h5 : Fin.snoc (Fin.init (leadingRows x k)) (x k) = leadingRows x k := by
    conv_lhs => rw [← leadingRows_last x k]
    exact Fin.snoc_init_self _
  rw [h5]

theorem jacobian_det_eq_prod {d : ℕ} (T : TriangularMap d) (x : Fin d → ℝ) :
    (jacobianMatrix T x).det =
      ∏ k, (T.comps k).rect.g (dExpansion (T.comps k) (leadingRows x k)) := by
  rw [Matrix.det_of_lowerTriangular (jacobianMatrix T x)
    (fun i j hij => jacobianMatrix_eq_zero_of_lt T x
      (OrderDual.toDual_lt_toDual.mp hij))]
  exact Finset.prod_congr rfl (fun k _ => jacobianMatrix_diag T x k)

/-- Claim C3: the triangular-map log-determinant is, per point, the sum over
components `k` of component `k`'s log-determinant evaluated on rows `1..k`;
and because the Jacobian is (lower) triangular, this sum equals the log of
the absolute determinant of the full Jacobian matrix. -/
theorem triangular_logDeterminant_sum {d : ℕ} (T : TriangularMap d)
    (x : Fin d → ℝ) :
    T.LogDeterminant x = ∑ k, (T.comps k).LogDeterminant (leadingRows x k) ∧
    Real.log |(jacobianMatrix T x).det| = T.LogDeterminant x := by
  refine ⟨rfl, ?_⟩
  rw [jacobian_det_eq_prod,
    abs_of_pos (Finset.prod_pos (fun k _ => (T.comps k).rect.g_pos _)),
    Real.log_prod _ _ (fun k _ => ((T.comps k).rect.g_pos _).ne')]
  rfl

/-- Claim C5: triangular dependency of Evaluate as a noninterference
property: two input points that agree on rows `1..k` produce the same output
row `k`; inputs beyond row `k` never influence it. -/
theorem triangular_evaluate_dependency {d : ℕ} (T : TriangularMap d)
    (x y : Fin d → ℝ) (k : Fin d) (h : ∀ j : Fin d, j ≤ k → x j = y j) :
    T.Evaluate x k = T.Evaluate y k := by
  unfold TriangularMap.Evaluate
  congr 1
  funext j2
  unfold leadingRows
  apply h
  rw [Fin.le_def]
  simp only [Fin.coe_castLE]
  exact Nat.lt_succ_iff.mp j2.isLt

/-- A concrete one-component triangular map used to instantiate witnesses. -/
noncomputable def exampleTriangularMap : TriangularMap 1 where
  comps := fun _ =>
    { basis := monomialBasis, rect := expRectifier,
      mset := [fun _ => 1], coeffs := [1] }

/-- Witness for C5 at a concrete map and pair of (equal-on-leading-rows)
inputs. -/
theorem triangular_evaluate_dependency_witness :
    exampleTriangularMap.Evaluate (fun _ => 0) 0 =
      exampleTriangularMap.Evaluate (fun _ => 0) 0 :=
  triangular_evaluate_dependency exampleTriangularMap (fun _ => 0)
    (fun _ => 0) 0 (fun _ _ => rfl)

/-! ## Inversion -/

/-- Modelled from the spec: component inversion in the last coordinate
(§4.3 step 7).  The bracketing Newton/bisection root-finder is idealised as
returning the exact root of the strictly monotone scalar function
`t ↦ S(lead, t)` whenever a root exists (convergence to within the
configured tolerance is modelled as exactness); when no root exists, the
numerical-failure signal of the library is modelled by a default value. -/
noncomputable def MonotoneMapComponent.Inverse {m : ℕ}
    (c : MonotoneMapComponent m) (lead : Fin m → ℝ) (y : ℝ) : ℝ :=
  if h : ∃ t, c.Evaluate (Fin.snoc lead t) = y then h.choose else 0

theorem Inverse_spec {m : ℕ} (c : MonotoneMapComponent m) (lead : Fin m → ℝ)
    (y : ℝ) (h : ∃ t, c.Evaluate (Fin.snoc lead t) = y) :
    c.Evaluate (Fin.snoc lead (c.Inverse lead y)) = y := by
  unfold MonotoneMapComponent.Inverse
  rw [dif_pos h]
  exact h.choose_spec

theorem Inverse_Evaluate {m : ℕ} (c : MonotoneMapComponent m)
    (x : Fin (m + 1) → ℝ) :
    c.Inverse (Fin.init x) (c.Evaluate x) = x (Fin.last m) := by
  have hex : ∃ t, c.Evaluate (Fin.snoc (Fin.init x) t) = c.Evaluate x :=
    ⟨x (Fin.last m), by rw [Fin.snoc_init_self]⟩
  have h1 := Inverse_spec c (Fin.init x) (c.Evaluate x) hex
  have h2 : c.Evaluate (Fin.snoc (Fin.init x) (x (Fin.last m))) =
      c.Evaluate x := by
    rw [Fin.snoc_init_self]
  exact (Evaluate_snoc_strictMono c (Fin.init x)).injective (h1.trans h2.symm)

/-- Modelled from the spec: sequential triangular inversion (§4.4): solve
component `1` for input row `1` from output row `1`, then component `2` for
row `2` given the solved row `1`, and so on, each step reusing the idealised
component root-finder. -/
noncomputable def triangularInverseAux {d : ℕ} (T : TriangularMap d)
    (y : Fin d → ℝ) : (k : ℕ) → k ≤ d → (Fin k → ℝ)
  | 0, _ => Fin.elim0
  | k + 1, hk =>
      Fin.snoc (triangularInverseAux T y k (Nat.le_of_succ_le hk))
        ((T.comps ⟨k, hk⟩).Inverse
          (triangularInverseAux T y k (Nat.le_of_succ_le hk)) (y ⟨k, hk⟩))

/-- Modelled from the spec: the `Inverse` operation of a triangular map. -/
noncomputable def TriangularMap.Inverse {d : ℕ} (T : TriangularMap d)
    (y : Fin d → ℝ) : Fin d → ℝ :=
  fun k => triangularInverseAux T y d le_rfl k

/-- The strictly-leading rows (rows `1..k`, excluding row `k + 1`) of a
point, the fixed coordinates used when inverting component `k`. -/
def strictLeadingRows {d : ℕ} (x : Fin d → ℝ) (k : Fin d) : Fin k.1 → ℝ :=
  fun j => x (Fin.castLE (le_of_lt k.isLt) j)

theorem triangularInverseAux_consistent {d : ℕ} (T : TriangularMap d)
    (y : Fin d → ℝ) :
    ∀ (k2 k1 : ℕ) (h12 : k1 ≤ k2) (h2 : k2 ≤ d) (j : Fin k1),
      triangularInverseAux T y k2 h2 (Fin.castLE h12 j) =
        triangularInverseAux T y k1 (le_trans h12 h2) j := by
  intro k2
  induction k2 with
  | zero =>
      intro k1 h12 h2 j
      exact absurd j.isLt (by omega)
  | succ k2 ih =>
      intro k1 h12 h2 j
      by_cases hk : k1 = k2 + 1
      · subst hk
        rfl
      · have hk1 : k1 ≤ k2 := by omega
        have hcs : Fin.castLE h12 j = Fin.castSucc (Fin.castLE hk1 j) := by
          apply Fin.ext
          simp
        rw [hcs]
        simp only [triangularInverseAux]
        rw [Fin.snoc_castSucc]
        exact ih k1 hk1 (Nat.le_of_succ_le h2) j

theorem leadingRows_triangular_inverse {d : ℕ} (T : TriangularMap d)
    (y : Fin d → ℝ) (k : Fin d) :
    leadingRows (T.Inverse y) k = triangularInverseAux T y (k.1 + 1) k.isLt := by
  funext j
  exact triangularInverseAux_consistent T y d (k.1 + 1) k.isLt le_rfl j

theorem strictLeadingRows_triangular_inverse {d : ℕ} (T : TriangularMap d)
    (y : Fin d → ℝ) (k : Fin d) :
    strictLeadingRows (T.Inverse y) k =
      triangularInverseAux T y k.1 (le_of_lt k.isLt) := by
  funext j
  exact triangularInverseAux_consistent T y d k.1 (le_of_lt k.isLt) le_rfl j

theorem triangular_inverse_evaluate {d : ℕ} (T : TriangularMap d)
    (y : Fin d → ℝ)
    (hex : ∀ k : Fin d, ∃ t, (T.comps k).Evaluate
      (Fin.snoc (strictLeadingRows (T.Inverse y) k) t) = y k)
    (k : Fin d) :
    T.Evaluate (T.Inverse y) k = y k := by
  have hlead := strictLeadingRows_triangular_inverse T y k
  unfold TriangularMap.Evaluate
  rw [leadingRows_triangular_inverse]
  simp only [triangularInverseAux]
  apply Inverse_spec
  rw [← hlead]
  exact hex k

theorem snoc_fin_zero (lead : Fin 0 → ℝ) (a : ℝ) :
    Fin.snoc lead a = (fun _ : Fin 1 => a) := by
  funext j
  have hj : j = Fin.last 0 := by
    apply Fin.ext
    have h1 := j.isLt
    simp only [Fin.val_last]
    omega
  rw [hj, Fin.snoc_last]

/-- Claim C2: Evaluate and Inverse are mutually inverse.  For every
component state and point `x`, `Inverse` applied to the leading coordinates
and `Evaluate(x)` recovers the last coordinate of `x` within any nonnegative
tolerance (the idealised root-finder is exact, so the residual is zero); and
symmetrically `Evaluate` applied to the result of `Inverse(lead, y)`
recovers `y` whenever `y` is attainable; for the triangular map, `Inverse`
followed by `Evaluate` returns the target outputs. -/
theorem evaluate_inverse_roundtrip {m d : ℕ} (tol : ℝ) (htol : 0 ≤ tol)
    (c : MonotoneMapComponent m) (x : Fin (m + 1) → ℝ) (lead : Fin m → ℝ)
    (yc : ℝ) (T : TriangularMap d) (y : Fin d → ℝ) :
    |c.Inverse (Fin.init x) (c.Evaluate x) - x (Fin.last m)| ≤ tol ∧
    ((∃ t, c.Evaluate (Fin.snoc lead t) = yc) →
      |c.Evaluate (Fin.snoc lead (c.Inverse lead yc)) - yc| ≤ tol) ∧
    ((∀ k : Fin d, ∃ t, (T.comps k).Evaluate
        (Fin.snoc (strictLeadingRows (T.Inverse y) k) t) = y k) →
      ∀ k : Fin d, |T.Evaluate (T.Inverse y) k - y k| ≤ tol) := by
  refine ⟨?_, ?_, ?_⟩
  · rw [Inverse_Evaluate, sub_self, abs_zero]
    exact htol
  · intro h
    rw [Inverse_spec c lead yc h, sub_self, abs_zero]
    exact htol
  · intro h k
    rw [triangular_inverse_evaluate T y h k, sub_self, abs_zero]
    exact htol

/-- A concrete target vector in the range of the concrete triangular map. -/
noncomputable def exampleTarget : Fin 1 → ℝ :=
  fun _ => (exampleTriangularMap.comps (Fin.last 0)).Evaluate (fun _ => 0)

/-- Witness for C2 at a concrete component, triangular map and target. -/
theorem evaluate_inverse_roundtrip_witness :
    |exampleComponent.Inverse (Fin.init (fun _ : Fin 1 => (0 : ℝ)))
        (exampleComponent.Evaluate (fun _ : Fin 1 => (0 : ℝ))) - 0| ≤ 1 ∧
    |exampleComponent.Evaluate (Fin.snoc (Fin.elim0 : Fin 0 → ℝ)
        (exampleComponent.Inverse (Fin.elim0 : Fin 0 → ℝ)
          (exampleComponent.Evaluate (fun _ : Fin 1 => (0 : ℝ))))) -
      exampleComponent.Evaluate (fun _ : Fin 1 => (0 : ℝ))| ≤ 1 ∧
    |exampleTriangularMap.Evaluate
        (exampleTriangularMap.Inverse exampleTarget) (Fin.last 0) -
      exampleTarget (Fin.last 0)| ≤ 1 := by
  have h := evaluate_inverse_roundtrip 1 zero_le_one
    exampleComponent (fun _ => 0) (Fin.elim0 : Fin 0 → ℝ)
    (exampleComponent.Evaluate (fun _ : Fin 1 => (0 : ℝ)))
    exampleTriangularMap exampleTarget
  refine ⟨h.1, h.2.1 ⟨0, congrArg _ (snoc_fin_zero _ 0)⟩, h.2.2 ?_ (Fin.last 0)⟩
  intro k
  obtain rfl : k = Fin.last 0 := Fin.ext (by omega)
  exact ⟨0, congrArg _ (snoc_fin_zero _ 0)⟩

/-! ## Coefficient vectors: SetCoeffs and CoeffMap -/

/-- The number of coefficients of a component: the size of its fixed
multi-index set (the coefficient-vector layout follows the set's stable
enumeration order). -/
def MonotoneMapComponent.numCoeffs {m : ℕ} (c : MonotoneMapComponent m) : ℕ :=
  c.mset.length

/-- A component with its coefficient vector replaced; the model of the only
mutation the API offers on a component. -/
def MonotoneMapComponent.withCoeffs {m : ℕ} (c : MonotoneMapComponent m)
    (w : List ℝ) : MonotoneMapComponent m :=
  { c with coeffs := w }

/-- Modelled from the spec: `numCoeffs` of a triangular map is the sum of the
component coefficient counts (§4.4). -/
def TriangularMap.numCoeffs {d : ℕ} (T : TriangularMap d) : ℕ :=
  (List.ofFn (fun k : Fin d => (T.comps k).numCoeffs)).sum

/-- Modelled from the spec: `CoeffMap`, the concatenated coefficient vector
of the components in order (§4.4). -/
def TriangularMap.CoeffMap {d : ℕ} (T : TriangularMap d) : List ℝ :=
  (List.ofFn (fun k : Fin d => (T.comps k).coeffs)).flatten

/-- The offset of component `k`'s block inside the concatenated coefficient
vector. -/
def TriangularMap.coeffStart {d : ℕ} (T : TriangularMap d) (k : Fin d) : ℕ :=
  ((List.ofFn (fun j : Fin d => (T.comps j).numCoeffs)).take k.1).sum

/-- Modelled from the spec: the blockwise coefficient assignment underlying
`SetCoeffs`: component `k` receives the slice of `w` of length
`numCoeffs k` starting at its block offset. -/
def TriangularMap.assignCoeffs {d : ℕ} (T : TriangularMap d) (w : List ℝ) :
    TriangularMap d :=
  ⟨fun k => (T.comps k).withCoeffs
    ((w.drop (T.coeffStart k)).take (T.comps k).numCoeffs)⟩

/-- Modelled from the spec: `SetCoeffs` (§4.4, §7).  The supplied vector's
length must equal the sum of the component coefficient counts; a mismatched
length is a configuration error reported eagerly by the call itself,
modelled by a `none` result (never deferred to a later `Evaluate`). -/
def TriangularMap.SetCoeffs {d : ℕ} (T : TriangularMap d) (w : List ℝ) :
    Option (TriangularMap d) :=
  if w.length = T.numCoeffs then some (T.assignCoeffs w) else none

theorem flatten_ofFn_take_drop :
    ∀ (d : ℕ) (counts : Fin d → ℕ) (w : List ℝ),
      w.length = (List.ofFn counts).sum →
      (List.ofFn (fun k : Fin d =>
        (w.drop ((List.ofFn counts).take k.1).sum).take (counts k))).flatten
        = w := by
  intro d
  induction d with
  | zero =>
      intro counts w hw
      simp only [List.ofFn_zero, List.flatten_nil]
      simp only [List.ofFn_zero, List.sum_nil] at hw
      exact (List.length_eq_zero.mp hw).symm
  | succ d ih =>
      intro counts w hw
      rw [List.ofFn_succ, List.flatten_cons]
      simp only [Fin.val_zero, List.take_zero, List.sum_nil, List.drop_zero]
      have hfun : (fun i : Fin d =>
          (w.drop ((List.ofFn counts).take (Fin.succ i).1).sum).take
            (counts (Fin.succ i))) =
          (fun i : Fin d =>
            ((w.drop (counts 0)).drop
              ((List.ofFn (fun i : Fin d => counts (Fin.succ i))).take
                i.1).sum).take (counts (Fin.succ i))) := by
        funext i
        congr 1
        rw [List.drop_drop]
        congr 1
        rw [List.ofFn_succ, Fin.val_succ, List.take_succ_cons, List.sum_cons]
      have hw2 : (w.drop (counts 0)).length =
          (List.ofFn (fun i : Fin d => counts (Fin.succ i))).sum := by
        rw [List.length_drop]
        rw [List.ofFn_succ, List.sum_cons] at hw
        omega
      rw [hfun, ih _ _ hw2, List.take_append_drop]

theorem CoeffMap_assignCoeffs {d : ℕ} (T : TriangularMap d) (w : List ℝ)
    (hw : w.length = T.numCoeffs) :
    (T.assignCoeffs w).CoeffMap = w := by
  exact flatten_ofFn_take_drop d (fun k => (T.comps k).numCoeffs) w hw

/-- Claim C9: `SetCoeffs` on a triangular map succeeds exactly when the
supplied vector's length equals `numCoeffs` (the sum of component
coefficient counts); any other length fails with a configuration error
raised by the `SetCoeffs` call itself (eagerly, modelled by the result being
`none`); and for a vector of the correct length a subsequent `CoeffMap`
returns that concatenated vector. -/
theorem setCoeffs_length_check {d : ℕ} (T : TriangularMap d) (w : List ℝ) :
    (T.SetCoeffs w = some (T.assignCoeffs w) ↔ w.length = T.numCoeffs) ∧
    (T.SetCoeffs w = none ↔ w.length ≠ T.numCoeffs) ∧
    (w.length = T.numCoeffs → (T.assignCoeffs w).CoeffMap = w) := by
  unfold TriangularMap.SetCoeffs
  by_cases h : w.length = T.numCoeffs
  · rw [if_pos h]
    exact ⟨⟨fun _ => h, fun _ => rfl⟩,
      ⟨fun hc => Option.noConfusion hc, fun hc => absurd h hc⟩,
      fun _ => CoeffMap_assignCoeffs T w h⟩
  · rw [if_neg h]
    exact ⟨⟨fun hc => Option.noConfusion hc, fun hl => absurd hl h⟩,
      ⟨fun _ => h, fun _ => rfl⟩, fun hl => absurd hl h⟩

/-- Witness for C9: a correct-length assignment round-trips through
`CoeffMap` on the concrete map, and a wrong-length vector is rejected. -/
theorem setCoeffs_length_check_witness :
    (exampleTriangularMap.assignCoeffs [1]).CoeffMap = [1] ∧
    exampleTriangularMap.SetCoeffs [0, 3] = none :=
  ⟨(setCoeffs_length_check exampleTriangularMap [1]).2.2 (by decide),
    (setCoeffs_length_check exampleTriangularMap [0, 3]).2.1.mpr (by decide)⟩

/-! ## Training objectives (embedded from the example scripts) -/

/-- The log-density of the `d`-dimensional standard normal reference
`log η(r) = -(d/2) log(2π) - ‖r‖²/2`, which the scripts evaluate through
`multivariate_normal(zeros(d), eye(d)).logpdf`. -/
noncomputable def logEta (d : ℕ) (r : Fin d → ℝ) : ℝ :=
  -(d * Real.log (2 * Real.pi)) / 2 - (∑ k, (r k) ^ 2) / 2

/-- The scalar (1-D) standard-normal log-density, the `rho1.logpdf` used by
FromSamples2D_banana.py for single map components. -/
noncomputable def logEtaOne (s : ℝ) : ℝ :=
  -Real.log (2 * Real.pi) / 2 - s ^ 2 / 2

theorem logEta_sum {d : ℕ} (r : Fin d → ℝ) :
    logEta d r = ∑ k, logEtaOne (r k) := by
  unfold logEta logEtaOne
  rw [Finset.sum_sub_distrib, Finset.sum_const, Finset.card_univ,
    Fintype.card_fin, nsmul_eq_mul, ← Finset.sum_div]
  ring

/-- Embedded from the source (`obj` in FromSamples2D_banana.py lines 136-147
and StochasticVolatility.py lines 84-97): the negative log-likelihood value
for a map on a batch, `-(Σ_i log η(S(x_i)) + logDet(x_i)) / N`. -/
noncomputable def objValue {d N : ℕ} (T : TriangularMap d)
    (X : Fin N → Fin d → ℝ) : ℝ :=
  -(∑ i, (logEta d (T.Evaluate (X i)) + T.LogDeterminant (X i))) / N

/-- Embedded from the source: the same objective applied to a single
monotone component on its leading input rows (the per-component objective
`J_k`; the scripts pass components `S1`, `S2`, `S` directly to `obj` with
the 1-D reference `rho1`). -/
noncomputable def componentObjective {m N : ℕ} (c : MonotoneMapComponent m)
    (Xk : Fin N → Fin (m + 1) → ℝ) : ℝ :=
  -(∑ i, (logEtaOne (c.Evaluate (Xk i)) + c.LogDeterminant (Xk i))) / N

theorem objValue_decompose {d N : ℕ} (V : TriangularMap d)
    (X : Fin N → Fin d → ℝ) :
    objValue V X = ∑ k, componentObjective (V.comps k)
      (fun i => leadingRows (X i) k) := by
  unfold objValue componentObjective
  have h1 : ∀ i, logEta d (V.Evaluate (X i)) + V.LogDeterminant (X i) =
      ∑ k, (logEtaOne ((V.comps k).Evaluate (leadingRows (X i) k)) +
        (V.comps k).LogDeterminant (leadingRows (X i) k)) := by
    intro i
    rw [logEta_sum]
    unfold TriangularMap.LogDeterminant
    rw [← Finset.sum_add_distrib]
    rfl
  simp only [h1]
  rw [Finset.sum_comm]
  have h2 : ∀ S : Fin d → ℝ, -(∑ k, S k) / (N : ℝ) = ∑ k, -(S k) / N := by
    intro S
    rw [← Finset.sum_neg_distrib, Finset.sum_div]
  exact h2 _

/-- Claim C4: with a standard-normal (product) reference, the full-map
negative log-likelihood objective equals the sum over components `k` of the
per-component objective `J_k`, where `J_k` depends only on component `k`
(its coefficients included) and on input rows `1..k`; consequently,
coefficients that make each `J_k` no larger than another choice also make
the joint objective no larger, so minimizing component-wise minimizes the
joint objective. -/
theorem objective_separable {d N : ℕ} (T U : TriangularMap d)
    (X : Fin N → Fin d → ℝ) :
    objValue T X =
      ∑ k, componentObjective (T.comps k) (fun i => leadingRows (X i) k) ∧
    ((∀ k : Fin d,
        componentObjective (T.comps k) (fun i => leadingRows (X i) k) ≤
          componentObjective (U.comps k) (fun i => leadingRows (X i) k)) →
      objValue T X ≤ objValue U X) := by
  refine ⟨objValue_decompose T X, fun h => ?_⟩
  rw [objValue_decompose T X, objValue_decompose U X]
  exact Finset.sum_le_sum (fun k _ => h k)

/-- A concrete two-point sample batch for the one-dimensional example map. -/
noncomputable def exampleBatch : Fin 2 → Fin 1 → ℝ := fun _ _ => 0

/-- Witness for C4 at the concrete map and batch (the dominance hypothesis
is discharged with the reflexive component-wise bound). -/
theorem objective_separable_witness :
    objValue exampleTriangularMap exampleBatch =
      ∑ k, componentObjective (exampleTriangularMap.comps k)
        (fun i => leadingRows (exampleBatch i) k) ∧
    objValue exampleTriangularMap exampleBatch ≤
      objValue exampleTriangularMap exampleBatch :=
  ⟨(objective_separable exampleTriangularMap exampleTriangularMap
      exampleBatch).1,
    (objective_separable exampleTriangularMap exampleTriangularMap
      exampleBatch).2 (fun _ => le_rfl)⟩

/-! ## Objective functions mutate the map (frame effect) -/

/-- Embedded from the source (`objective` in FromDensity1D.py lines 38-43,
`obj` in FromSamples2D_banana.py lines 136-147 and StochasticVolatility.py
lines 84-97): each objective first calls `SetCoeffs(coeffs)` — mutating the
map object passed in — and then computes the negative log-likelihood from
the updated map.  The mutation is modelled by returning the post-call map
state together with the value; a configuration error raised by `SetCoeffs`
propagates as `none`. -/
noncomputable def objWithState {d N : ℕ} (coeffsArg : List ℝ)
    (T : TriangularMap d) (X : Fin N → Fin d → ℝ) :
    Option (ℝ × TriangularMap d) :=
  match T.SetCoeffs coeffsArg with
  | none => none
  | some U => some (objValue U X, U)

/-- A triangular map with every component's coefficient vector replaced;
used to express that the objective value ignores the pre-call coefficient
state of the map object. -/
def TriangularMap.withAllCoeffs {d : ℕ} (T : TriangularMap d)
    (W : (k : Fin d) → List ℝ) : TriangularMap d :=
  ⟨fun k => (T.comps k).withCoeffs (W k)⟩

/-- Claim C10: the scripts' objective functions mutate the map object:
after `obj(c, map, X)` returns, the map's stored coefficient vector
(`CoeffMap`) equals the argument `c`, and the returned value is a
deterministic function of `(c, X)` and the map's immutable structure alone
— the pre-call coefficient state is irrelevant.  The end-of-script
reporting of final coefficients relies on exactly this persistence. -/
theorem obj_mutates_and_deterministic {d N : ℕ} (coeffsArg : List ℝ)
    (T : TriangularMap d) (X : Fin N → Fin d → ℝ)
    (h : coeffsArg.length = T.numCoeffs) :
    objWithState coeffsArg T X =
      some (objValue (T.assignCoeffs coeffsArg) X, T.assignCoeffs coeffsArg) ∧
    (T.assignCoeffs coeffsArg).CoeffMap = coeffsArg ∧
    ∀ W : (k : Fin d) → List ℝ,
      objWithState coeffsArg (T.withAllCoeffs W) X =
        objWithState coeffsArg T X := by
  refine ⟨?_, CoeffMap_assignCoeffs T coeffsArg h, fun W => rfl⟩
  unfold objWithState TriangularMap.SetCoeffs
  rw [if_pos h]

/-- Witness for C10 at the concrete map, batch and coefficient vector, the
determinism conjunct instantiated at a concrete pre-call coefficient
state. -/
theorem obj_mutates_and_deterministic_witness :
    objWithState [1] exampleTriangularMap exampleBatch =
      some (objValue (exampleTriangularMap.assignCoeffs [1]) exampleBatch,
        exampleTriangularMap.assignCoeffs [1]) ∧
    (exampleTriangularMap.assignCoeffs [1]).CoeffMap = [1] ∧
    objWithState [1] (exampleTriangularMap.withAllCoeffs (fun _ => [5, 7]))
        exampleBatch =
      objWithState [1] exampleTriangularMap exampleBatch := by
  have h := obj_mutates_and_deterministic [1] exampleTriangularMap
    exampleBatch (by decide)
  exact ⟨h.1, h.2.1, h.2.2 (fun _ => [5, 7])⟩

/-! ## Gradient sensitivity for the standard-normal reference -/

/-- Modelled from the spec: the scalar contraction computed by
`CoeffGrad(X, sens)` for one point and one coefficient direction — the
per-point sensitivity vector dotted with the derivative of the map outputs
along that coefficient direction (§4.3 step 5). -/
noncomputable def coeffGradEntry {d : ℕ} (sens dS : Fin d → ℝ) : ℝ :=
  ∑ k, sens k * dS k

/-- Claim C7: with a standard normal reference density, the gradient of
`log η` at a point `r` is `-r` coordinate-wise, so the chain-rule
sensitivity for the `log η(S(x; w))` term of the sample-based objective is
the negated map output; consequently the derivative of
`c ↦ log η(S(x; c))` along any coefficient direction is exactly the negated
`CoeffGrad` contraction with sensitivities `S(x; w)` — the quantity the
scripts compute as `-tri_map.CoeffGrad(x, map_of_x)`. -/
theorem grad_obj_sensitivity {d : ℕ} (Sc : Fin d → ℝ → ℝ) (dS : Fin d → ℝ)
    (c0 : ℝ) (h : ∀ k, HasDerivAt (fun c => Sc k c) (dS k) c0) :
    (∀ (r : Fin d → ℝ) (j : Fin d),
      HasDerivAt (fun s => logEta d (Function.update r j s)) (-(r j)) (r j)) ∧
    HasDerivAt (fun c => logEta d (fun k => Sc k c))
      (-(coeffGradEntry (fun k => Sc k c0) dS)) c0 := by
  constructor
  · intro r j
    have hupdate : ∀ (s : ℝ) (k : Fin d), (Function.update r j s k) ^ 2 =
        Function.update (fun k => (r k) ^ 2) j (s ^ 2) k := by
      intro s k
      by_cases hk : k = j
      · subst hk
        rw [Function.update_same, Function.update_same]
      · rw [Function.update_noteq hk, Function.update_noteq hk]
    have hfun : (fun s => logEta d (Function.update r j s)) =
        (fun s => (-((d : ℝ) * Real.log (2 * Real.pi)) / 2 -
          (∑ k in (Finset.univ \ {j}), (r k) ^ 2) / 2) - s ^ 2 / 2) := by
      funext s
      unfold logEta
      rw [Finset.sum_congr rfl (fun k _ => hupdate s k),
        Finset.sum_update_of_mem (Finset.mem_univ j)]
      ring
    rw [hfun]
    have hpow : HasDerivAt (fun s : ℝ => s ^ 2) (2 * (r j)) (r j) := by
      simpa using hasDerivAt_pow 2 (r j)
    have h2 := (hpow.div_const 2).const_sub
      (-((d : ℝ) * Real.log (2 * Real.pi)) / 2 -
        (∑ k in (Finset.univ \ {j}), (r k) ^ 2) / 2)
    have hv : -(r j) = -(2 * (r j) / 2) := by ring
    rw [hv]
    exact h2
  · have hsq : ∀ k : Fin d, HasDerivAt (fun c => (Sc k c) ^ 2)
        (2 * Sc k c0 * dS k) c0 := by
      intro k
      simpa using (h k).pow 2
    have hsum : HasDerivAt (fun c => ∑ k, (Sc k c) ^ 2)
        (∑ k, 2 * Sc k c0 * dS k) c0 :=
      HasDerivAt.sum (fun k _ => hsq k)
    have h3 := (hsum.div_const 2).const_sub
      (-((d : ℝ) * Real.log (2 * Real.pi)) / 2)
    have hval : -(coeffGradEntry (fun k => Sc k c0) dS) =
        -((∑ k, 2 * Sc k c0 * dS k) / 2) := by
      unfold coeffGradEntry
      rw [Finset.sum_div]
      congr 1
      exact Finset.sum_congr rfl (fun k _ => by ring)
    rw [hval]
    exact h3

/-- Witness for C7: the identity map component family at a concrete point,
with the coefficient derivative hypothesis discharged by the derivative of
the identity. -/
theorem grad_obj_sensitivity_witness :
    HasDerivAt (fun s => logEta 1
      (Function.update (fun _ : Fin 1 => (1 : ℝ)) (Fin.last 0) s)) (-1) 1 ∧
    HasDerivAt (fun c : ℝ => logEta 1 (fun _ => c))
      (-(coeffGradEntry (fun _ : Fin 1 => (0 : ℝ)) (fun _ => 1))) 0 := by
  have h := grad_obj_sensitivity (fun _ : Fin 1 => fun c : ℝ => c)
    (fun _ => 1) 0 (fun _ => hasDerivAt_id 0)
  exact ⟨h.1 (fun _ => 1) (Fin.last 0), h.2⟩

/-! ## The affine-Gaussian end-to-end fit (FromDensity1D.py) -/

/-- Modelled from the spec: the population (infinite-sample) limit of the
density-known KL objective of FromDensity1D.py for the affine map with
multi-index set `{[0],[1]}`: `S(z; w) = w0 + exp(w1) * z` (constant plus
linear basis term rectified by the exponential), pushing standard-normal
reference samples onto the target `Normal(mean 2, std 0.5)`.  The script's
Monte-Carlo mean over 5000 seeded samples and the external Nelder-Mead
optimizer are idealised as the exact population objective
`E_z[-log pdf_target(S(z; w)) - log(dS/dz)]`, evaluated in closed form with
the standard-normal moments `E[z] = 0`, `E[z^2] = 1` (so that
`E[(w0 + a z - 2)^2] = (w0 - 2)^2 + a^2` with `a = exp w1`):
`J(w0, w1) = 2 (w0 - 2)^2 + 2 (exp w1)^2 + log(sqrt(2π)/2) - w1`. -/
noncomputable def affineGaussianObjective (w0 w1 : ℝ) : ℝ :=
  2 * (w0 - 2) ^ 2 + 2 * Real.exp w1 ^ 2 +
    Real.log (Real.sqrt (2 * Real.pi) / 2) - w1

/-- Claim C6: minimizing the density-known KL objective for the affine map
against the `Normal(2, 0.5)` target recovers coefficients within `0.1` of
`[2, -0.69]` (that is, `[mean, log std]`) and a final objective value within
`0.1` of `1.41`: the population objective is globally minimized at
`(2, log (1/2))`, and both `log (1/2) = -log 2` and the minimum value
`1/2 + log √(2π)` satisfy the asserted tolerances. -/
theorem affine_fit_recovers_target :
    (∀ w0 w1 : ℝ, affineGaussianObjective 2 (-Real.log 2) ≤
      affineGaussianObjective w0 w1) ∧
    |(2 : ℝ) - 2| ≤ 0.1 ∧
    |(-Real.log 2) - (-0.69)| ≤ 0.1 ∧
    |affineGaussianObjective 2 (-Real.log 2) - 1.41| ≤ 0.1 := by
  have hl2a := Real.log_two_gt_d9
  have hl2b := Real.log_two_lt_d9
  have hsqrtpos : (0 : ℝ) < Real.sqrt (2 * Real.pi) :=
    Real.sqrt_pos.mpr (by positivity)
  have hexpneg : Real.exp (-Real.log 2) = 1 / 2 := by
    rw [Real.exp_neg, Real.exp_log two_pos]
    norm_num
  refine ⟨?_, by norm_num, ?_, ?_⟩
  · intro w0 w1
    unfold affineGaussianObjective
    rw [hexpneg]
    have hlog : Real.log (2 * Real.exp w1) ≤ 2 * Real.exp w1 - 1 :=
      Real.log_le_sub_one_of_pos (by positivity)
    have hlog2 : Real.log (2 * Real.exp w1) = Real.log 2 + w1 := by
      rw [Real.log_mul two_ne_zero (Real.exp_ne_zero w1), Real.log_exp]
    nlinarith [sq_nonneg (Real.exp w1 - 1 / 2), sq_nonneg (w0 - 2),
      Real.exp_pos w1]
  · rw [abs_le]
    constructor <;> linarith
  · have hJ : affineGaussianObjective 2 (-Real.log 2) =
        1 / 2 + Real.log (2 * Real.pi) / 2 := by
      unfold affineGaussianObjective
      rw [hexpneg, Real.log_div hsqrtpos.ne' two_ne_zero,
        Real.log_sqrt (by positivity)]
      ring
    have hlow : Real.log 2 + 1 ≤ Real.log (2 * Real.pi) := by
      have he : Real.log 2 + 1 = Real.log (2 * Real.exp 1) := by
        rw [Real.log_mul two_ne_zero (Real.exp_ne_zero 1), Real.log_exp]
      rw [he]
      apply Real.log_le_log (by positivity)
      have h1 := Real.exp_one_lt_d9
      have h2 := Real.pi_gt_d2
      nlinarith
    have hup : Real.log (2 * Real.pi) ≤ 2 := by
      have he : (2 : ℝ) = Real.log (Real.exp 2) := by rw [Real.log_exp]
      rw [he]
      apply Real.log_le_log (by positivity)
      have hexp2 : Real.exp 2 = Real.exp 1 * Real.exp 1 := by
        rw [← Real.exp_add]
        norm_num
      have h1 := Real.exp_one_gt_d9
      have h2 := Real.pi_lt_d2
      nlinarith
    rw [hJ, abs_le]
    constructor <;> linarith

end MPartSpec
